import Mathlib

/-!
Shallow embedding of `src/timeline.rs` from iced-rs/comet.

Modelling conventions:
- `VecDeque` becomes `List` with the deque's front at the list's head;
  `push_back` appends, `pop_front` takes the tail, `range(0..n)` is `take n`,
  and `.rev()` iteration is `List.reverse`.
- `usize` becomes `Nat`; Rust's `saturating_sub` is `Nat` subtraction.
- `SystemTime` is modelled as nanoseconds since the UNIX epoch (`Nat`);
  `duration_since(UNIX_EPOCH).unwrap_or_default().as_secs()` is division by
  10^9.  `Duration` is likewise a nanosecond count.
- A Rust call that can panic (here: `VecDeque::range` with an out-of-bounds
  upper bound inside `seek`) is embedded as an `Option`, `none` being the
  panic.
- `iced_beacon`'s `Event`/`Span` are external dependency types; they are
  embedded with exactly the structure the timeline code consumes
  (the `SpanFinished`/`Update` payload, the `at` timestamp accessor and the
  span → stage classification).
-/

namespace Comet

/-- Nanoseconds since the UNIX epoch (`std::time::SystemTime`). -/
abbrev SystemTime := Nat

/-- Nanoseconds (`std::time::Duration`). -/
abbrev Duration := Nat

/-- Rust `at.duration_since(SystemTime::UNIX_EPOCH).unwrap_or_default().as_secs()`. -/
def secsSinceEpoch (t : SystemTime) : Nat :=
  t / 1000000000

/-- Rust `iced_beacon::span::Span`: the per-stage payloads; the timeline only
destructures the `Update` payload, the others are carried opaquely. -/
inductive Span where
  | boot
  | update (number : Nat) (tasks : Nat) (subscriptions : Nat) (message : String)
  | view (windowId : Nat)
  | layout (windowId : Nat)
  | interact (windowId : Nat)
  | draw (windowId : Nat)
  | present (windowId : Nat)
  | prepare (primitive : String)
  | render (primitive : String)
  | custom (name : String)
  deriving DecidableEq, Repr, Inhabited

/-- Rust `chart::Stage`: the coarse category a span reports under. -/
inductive Stage where
  | boot
  | update
  | view
  | layout
  | interact
  | draw
  | present
  | prepare (primitive : String)
  | render (primitive : String)
  | custom (name : String)
  deriving DecidableEq, Repr

/-- Rust `span.stage()` composed with `chart::Stage::from`: the classification
used by `Timeline::timeframes` (window ids are collapsed, primitives kept). -/
def Span.chartStage : Span → Stage
  | .boot => .boot
  | .update _ _ _ _ => .update
  | .view _ => .view
  | .layout _ => .layout
  | .interact _ => .interact
  | .draw _ => .draw
  | .present _ => .present
  | .prepare primitive => .prepare primitive
  | .render primitive => .render primitive
  | .custom name => .custom name

/-- Rust `iced_beacon::Event`: the closed set of producer events. -/
inductive Event where
  | connected (name : String) (version : String) (at_ : SystemTime)
  | disconnected (at_ : SystemTime)
  | themeChanged (at_ : SystemTime)
  | spanFinished (at_ : SystemTime) (duration : Duration) (span : Span)
  | subscriptionsTracked (amountAlive : Nat) (at_ : SystemTime)
  | quitRequested (at_ : SystemTime)
  | alreadyRunning (at_ : SystemTime)
  deriving DecidableEq, Repr

instance : Inhabited Event := ⟨.quitRequested 0⟩

/-- Rust `Event::at()`: the wall-clock timestamp every event carries. -/
def Event.at_ : Event → SystemTime
  | .connected _ _ t => t
  | .disconnected t => t
  | .themeChanged t => t
  | .spanFinished t _ _ => t
  | .subscriptionsTracked _ t => t
  | .quitRequested t => t
  | .alreadyRunning t => t

/-- Does the event match `Event::SpanFinished { span: Span::Update { .. }, .. }`? -/
def isUpdateEvent : Event → Bool
  | .spanFinished _ _ (.update _ _ _ _) => true
  | _ => false

/-- Rust `timeline::Index`: a logical position in the event stream
(`struct Index(usize)` with derived total order). -/
structure Index where
  val : Nat
  deriving DecidableEq, Repr, Inhabited

/-- Rust `impl Add<usize> for Index` (unchecked addition). -/
def Index.addNat (i : Index) (n : Nat) : Index := ⟨i.val + n⟩

/-- Rust `impl Sub<usize> for Index`: `saturating_sub`, which is `Nat` subtraction. -/
def Index.subNat (i : Index) (n : Nat) : Index := ⟨i.val - n⟩

/-- Derived `Ord` on `Index`, used by `binary_search_by`. -/
def Index.cmp (i j : Index) : Ordering := compare i.val j.val

/-- Rust `timeline::Playhead`. -/
inductive Playhead where
  | live
  | paused (index : Index)
  deriving DecidableEq, Repr

/-- Rust `timeline::Update`: the per-update summary stored in the secondary
`updates` sequence. -/
structure Update where
  index : Index
  duration : Duration
  number : Nat
  tasks : Nat
  subscriptions : Nat
  message : String
  deriving DecidableEq, Repr, Inhabited

/-- Rust `timeline::Bucket`: a per-second update-rate bucket. -/
structure Bucket where
  index : Index
  at_ : SystemTime
  second : Nat
  total : Nat
  deriving DecidableEq, Repr, Inhabited

/-- Rust `timeline::Timeframe`. -/
structure Timeframe where
  index : Index
  at_ : SystemTime
  duration : Duration
  deriving DecidableEq, Repr

/-- Rust `timeline::Timeline`: the bounded event log plus derived indices. -/
structure Timeline where
  events : List Event
  updates : List Update
  update_rate : List Bucket
  removed : Nat
  deriving DecidableEq, Repr

namespace Timeline

/-- Rust `Timeline::MAX_SIZE`. -/
def MAX_SIZE : Nat := 1000000

/-- Rust `Timeline::new()` (the derived `Default`). -/
def new : Timeline := ⟨[], [], [], 0⟩

/-- Rust `Timeline::len`. -/
def len (t : Timeline) : Nat := t.events.length

/-- Rust `Timeline::end` (`end` is reserved in Lean, hence the underscore). -/
def end_ (t : Timeline) : Index := ⟨t.events.length + t.removed⟩

/-- Rust `Timeline::range`, the inclusive range `Index(removed)..=end()` modelled
as its pair of endpoints. -/
def range (t : Timeline) : Index × Index := (⟨t.removed⟩, t.end_)

/-- Rust `Timeline::index`: resolve a playhead against the current timeline. -/
def index (t : Timeline) (p : Playhead) : Index :=
  match p with
  | .live => t.end_
  | .paused i => i

/-- The summary `Timeline::push` appends to `updates` for an update-span
event (empty list for any other event). -/
def newSummaries (t : Timeline) (e : Event) : List Update :=
  match e with
  | .spanFinished _ duration (.update number tasks subscriptions message) =>
      [⟨t.end_, duration, number, tasks, subscriptions, message⟩]
  | _ => []

/-- The `update_rate` sequence after the rate-folding step of
`Timeline::push` (the `match self.update_rate.back_mut()` block). -/
def foldRate (t : Timeline) (e : Event) : List Bucket :=
  match e with
  | .spanFinished at_ _ (.update _ _ _ _) =>
      let second := secsSinceEpoch at_
      match t.update_rate.getLast? with
      | some b =>
          if b.second = second then
            t.update_rate.dropLast ++ [{ b with at_ := at_, total := b.total + 1 }]
          else
            t.update_rate ++ [⟨t.end_, at_, second, 1⟩]
      | none => t.update_rate ++ [⟨t.end_, at_, second, 1⟩]
  | _ => t.update_rate

/-- Rust `Timeline::push`. -/
def push (t : Timeline) (e : Event) : Timeline :=
  let updates1 := t.updates ++ t.newSummaries e
  let rate1 := t.foldRate e
  let events1 := t.events ++ [e]
  if events1.length > MAX_SIZE then
    match events1 with
    | .spanFinished at_ _ (.update _ _ _ _) :: rest =>
        { events := rest
          updates := updates1.tail
          update_rate :=
            match rate1.head? with
            | some b => if b.at_ < at_ then rate1.tail else rate1
            | none => rate1
          removed := t.removed + 1 }
    | _ :: rest =>
        { events := rest, updates := updates1, update_rate := rate1,
          removed := t.removed + 1 }
    | [] =>
        -- unreachable: `events1` is an append of a singleton
        { events := [], updates := updates1, update_rate := rate1,
          removed := t.removed + 1 }
  else
    { events := events1, updates := updates1, update_rate := rate1,
      removed := t.removed }

/-- Rust `Timeline::clear` (note: the source clears only `events`). -/
def clear (t : Timeline) : Timeline :=
  { t with events := [] }

/-- Rust `Timeline::seek`.  `VecDeque::range(0..n)` panics when `n` exceeds the
queue length, hence the `Option`; otherwise the backward iterator is the
reversed prefix. -/
def seek (t : Timeline) (p : Playhead) : Option (List Event) :=
  let index := (t.index p).subNat t.removed
  if index.val ≤ t.events.length then
    some ((t.events.take index.val).reverse)
  else
    none

/-- Rust `Timeline::seek_with_index`: the same traversal, each item paired with
`index - i` where `index` is the resolved index minus `removed`. -/
def seek_with_index (t : Timeline) (p : Playhead) :
    Option (List (Index × Event)) :=
  let index := (t.index p).subNat t.removed
  (t.seek p).map fun l =>
    (l.enum).map fun ie => (index.subNat ie.1, ie.2)

/-- Rust `Timeline::timeframes`. -/
def timeframes (t : Timeline) (p : Playhead) (stage : Stage) :
    Option (List Timeframe) :=
  (t.seek_with_index p).map fun l =>
    l.filterMap fun ie =>
      match ie.2 with
      | .spanFinished at_ duration span =>
          if span.chartStage = stage then
            some ⟨ie.1, at_, duration⟩
          else
            none
      | _ => none

end Timeline

/-- The loop of `slice::binary_search_by` (which `VecDeque::binary_search_by`
delegates to): classic two-pointer bisection, `Sum.inl` for `Ok`,
`Sum.inr` for `Err`.  The `while` loop is embedded with an explicit fuel
parameter; `right - left` shrinks every iteration, so any fuel of at least
`right - left` (the call below passes the list length) makes the embedding
exact. -/
def bsLoop (f : Nat → Ordering) : Nat → Nat → Nat → Nat ⊕ Nat
  | 0, left, _ => Sum.inr left
  | fuel + 1, left, right =>
    if left < right then
      let mid := left + (right - left) / 2
      match f mid with
      | .lt => bsLoop f fuel (mid + 1) right
      | .gt => bsLoop f fuel left mid
      | .eq => Sum.inl mid
    else
      Sum.inr left

/-- The `Ok(i) | Err(i) => i` destructuring applied to a search result. -/
def bsStart : Nat ⊕ Nat → Nat
  | .inl i => i
  | .inr i => i

/-- Rust `binary_search_by` over our list model of `VecDeque`. -/
def binarySearchBy (l : List α) (f : α → Ordering) : Nat ⊕ Nat :=
  bsLoop
    (fun i =>
      match l[i]? with
      | some a => f a
      | none => Ordering.eq)
    l.length 0 l.length

namespace Timeline

/-- Rust `Timeline::updates` (the query; the structure field keeps the plain
name, so the method is suffixed). -/
def updatesQuery (t : Timeline) (p : Playhead) : List Update :=
  let index := t.index p
  let start := bsStart (binarySearchBy t.updates (fun u => u.index.cmp index))
  (t.updates.take start).reverse

/-- Rust `Timeline::update_rate` (the query). -/
def updateRateQuery (t : Timeline) (p : Playhead) : List Bucket :=
  let index := t.index p
  let start := bsStart (binarySearchBy t.update_rate (fun b => b.index.cmp index))
  (t.update_rate.take start).reverse

/-- Rust `Timeline::time_at`: `seek(playhead).next().map(Event::at)`.  The outer
`Option` is panic-freedom of `seek`, the inner one is the Rust `Option`. -/
def time_at (t : Timeline) (p : Playhead) : Option (Option SystemTime) :=
  (t.seek p).map fun l => l.head?.map Event.at_

/-- Pushing a whole list of events in order. -/
def pushAll (t : Timeline) (es : List Event) : Timeline :=
  es.foldl push t

end Timeline

/-- The logical indices (starting at `base`) of the update-span events of a
list: the intended contents of `updates.map (·.index.val)`. -/
def updIdxFrom (base : Nat) : List Event → List Nat
  | [] => []
  | e :: rest => (if isUpdateEvent e then [base] else []) ++ updIdxFrom (base + 1) rest

/-- The derived-index invariant of `Timeline::push`: the stored update
summaries carry exactly the logical indices of the retained update-span
events, in order. -/
def UpdatesInv (t : Timeline) : Prop :=
  t.updates.map (fun u => u.index.val) = updIdxFrom t.removed t.events

/-! ### Concrete events used in scenario proofs -/

/-- An update-span event: `at = 5ns`, `duration = 7ns`. -/
def exUpdate : Event := .spanFinished 5 7 (.update 1 2 3 "hello")

/-- A non-update event. -/
def exConn : Event := .connected "app" "1.0" 9

/-- The §8 scenario events: `Connected`, two updates (10ms and 12ms),
`SubscriptionsTracked`. -/
def exScenario : List Event :=
  [ .connected "app" "1.0" 4
  , .spanFinished 5 10000000 (.update 1 0 0 "first")
  , .spanFinished 6 12000000 (.update 2 0 0 "second")
  , .subscriptionsTracked 3 7 ]

/-- Four update-span events: three in UNIX second 0, one in second 1. -/
def exRateEvents : List Event :=
  [ .spanFinished 5 1 (.update 1 0 0 "a")
  , .spanFinished 6 2 (.update 2 0 0 "b")
  , .spanFinished 7 3 (.update 3 0 0 "c")
  , .spanFinished 1000000005 4 (.update 4 0 0 "d") ]

namespace Timeline

/-! ### Unfolding lemmas for `push` -/

theorem push_events (t : Timeline) (e : Event) :
    (t.push e).events =
      if t.events.length + 1 > MAX_SIZE then (t.events ++ [e]).tail
      else t.events ++ [e] := by
  simp only [push, List.length_append, List.length_singleton]
  split
  · split
    · rename_i heq
      rw [heq]
      rfl
    · rename_i heq
      rw [heq]
      rfl
    · rename_i heq
      simp at heq
  · rfl

theorem push_removed (t : Timeline) (e : Event) :
    (t.push e).removed =
      if t.events.length + 1 > MAX_SIZE then t.removed + 1
      else t.removed := by
  simp only [push, List.length_append, List.length_singleton]
  split
  · split <;> rfl
  · rfl

theorem push_no_evict (t : Timeline) (e : Event)
    (h : t.events.length < MAX_SIZE) :
    t.push e =
      { events := t.events ++ [e]
        updates := t.updates ++ t.newSummaries e
        update_rate := t.foldRate e
        removed := t.removed } := by
  simp only [push, List.length_append, List.length_singleton]
  rw [if_neg]
  omega

theorem pushAll_nil (t : Timeline) : t.pushAll [] = t := rfl

theorem pushAll_cons (t : Timeline) (e : Event) (es : List Event) :
    t.pushAll (e :: es) = (t.push e).pushAll es := rfl

theorem pushAll_snoc (t : Timeline) (es : List Event) (e : Event) :
    t.pushAll (es ++ [e]) = (t.pushAll es).push e := by
  simp [pushAll, List.foldl_append]

theorem MAX_SIZE_pos : 1 ≤ MAX_SIZE := by decide

/-! ### Size and eviction bookkeeping -/

theorem push_len_removed (t : Timeline) (e : Event) (N : Nat)
    (hl : t.events.length = min N MAX_SIZE)
    (hr : t.removed = N - MAX_SIZE) :
    (t.push e).events.length = min (N + 1) MAX_SIZE ∧
      (t.push e).removed = (N + 1) - MAX_SIZE := by
  rw [push_events, push_removed]
  have hpos := MAX_SIZE_pos
  constructor
  · split <;> simp <;> omega
  · split <;> omega

theorem pushAll_len_removed (es : List Event) :
    ∀ (t : Timeline) (N : Nat),
      t.events.length = min N MAX_SIZE → t.removed = N - MAX_SIZE →
      (t.pushAll es).events.length = min (N + es.length) MAX_SIZE ∧
        (t.pushAll es).removed = (N + es.length) - MAX_SIZE := by
  induction es with
  | nil => intro t N hl hr; simpa [pushAll_nil] using ⟨hl, hr⟩
  | cons e es ih =>
      intro t N hl hr
      rw [pushAll_cons]
      have h := push_len_removed t e N hl hr
      have := ih (t.push e) (N + 1) h.1 h.2
      simpa [Nat.add_assoc, Nat.add_comm 1 es.length] using this

theorem pushAll_new_len (es : List Event) :
    (Timeline.new.pushAll es).events.length = min es.length MAX_SIZE ∧
      (Timeline.new.pushAll es).removed = es.length - MAX_SIZE := by
  have h := pushAll_len_removed es Timeline.new 0 (by simp [new]) (by simp [new])
  simpa using h

theorem push_end_succ (t : Timeline) (e : Event) :
    (t.push e).end_.val = t.end_.val + 1 := by
  simp only [end_, push_events, push_removed]
  split
  · rename_i h
    simp only [List.length_tail, List.length_append, List.length_singleton]
    omega
  · simp only [List.length_append, List.length_singleton]
    omega

theorem pushAll_no_evict (es : List Event) :
    ∀ t : Timeline, t.events.length + es.length ≤ MAX_SIZE →
      (t.pushAll es).events = t.events ++ es ∧
        (t.pushAll es).removed = t.removed := by
  induction es with
  | nil => intro t h; simp [pushAll_nil]
  | cons e es ih =>
      intro t h
      rw [pushAll_cons]
      have hlt : t.events.length < MAX_SIZE := by
        simp only [List.length_cons] at h; omega
      rw [push_no_evict t e hlt]
      have h' := ih
        { events := t.events ++ [e]
          updates := t.updates ++ t.newSummaries e
          update_rate := t.foldRate e
          removed := t.removed }
        (by
          simp at h ⊢
          omega)
      simpa using h'

end Timeline

/-- C1: starting from a fresh `Timeline`, after any sequence of `N` pushes,
`end() == Index(N)` (and each further `push` increases `end()` by exactly 1),
`events.len() == min(N, MAX_SIZE)`, `removed == N - MAX_SIZE` (saturating,
i.e. `max(0, N - MAX_SIZE)`), `range() == Index(removed)..=Index(removed +
events.len())`, and on overflow exactly one oldest event is evicted per
push. -/
theorem c1_push_sequence_bounds (es : List Event) :
    let t := Timeline.new.pushAll es
    t.end_ = ⟨es.length⟩ ∧
    t.events.length = min es.length Timeline.MAX_SIZE ∧
    t.removed = es.length - Timeline.MAX_SIZE ∧
    t.range = (⟨t.removed⟩, ⟨t.removed + t.events.length⟩) ∧
    ∀ e : Event,
      (t.push e).end_.val = t.end_.val + 1 ∧
      (t.push e).events =
        (if t.events.length + 1 > Timeline.MAX_SIZE then t.events.tail ++ [e]
         else t.events ++ [e]) := by
  intro t
  have ht : t = Timeline.new.pushAll es := rfl
  obtain ⟨hl, hr⟩ := Timeline.pushAll_new_len es
  rw [← ht] at hl hr
  refine ⟨?_, hl, hr, ?_, ?_⟩
  · simp only [Timeline.end_, Index.mk.injEq]
    omega
  · simp only [Timeline.range, Timeline.end_, Prod.mk.injEq, Index.mk.injEq]
    exact ⟨trivial, Nat.add_comm _ _⟩
  · intro e
    refine ⟨Timeline.push_end_succ t e, ?_⟩
    rw [Timeline.push_events]
    split
    · rename_i h
      have hne : t.events ≠ [] := by
        have := Timeline.MAX_SIZE_pos
        intro hnil
        rw [hnil] at h
        simp at h
        omega
      obtain ⟨hd, tl, htl⟩ := List.exists_cons_of_ne_nil hne
      rw [htl]
      rfl
    · rfl

namespace Timeline

theorem seek_def (t : Timeline) (p : Playhead) :
    t.seek p =
      if (t.index p).val - t.removed ≤ t.events.length then
        some ((t.events.take ((t.index p).val - t.removed)).reverse)
      else none := rfl

theorem seek_paused (t : Timeline) (i : Nat)
    (h : i - t.removed ≤ t.events.length) :
    t.seek (.paused ⟨i⟩) =
      some ((t.events.take (i - t.removed)).reverse) := by
  rw [seek_def]
  exact if_pos h

theorem seek_live (t : Timeline) :
    t.seek .live = some ((t.events.take (t.end_.val - t.removed)).reverse) := by
  rw [seek_def]
  refine if_pos ?_
  simp [index, end_]

end Timeline

/-- C2: `seek(Live)` right after `N ≤ MAX_SIZE` pushes yields exactly the `N`
events in reverse-insertion order; `seek(Paused(i))` for `removed ≤ i ≤
end()` yields exactly `i - removed` events, the retained events at logical
indices `i-1` down to `removed` (the item at backward offset `k` is the
event at logical index `i-1-k`), all strictly before the resolved index. -/
theorem c2_seek_determinism :
    (∀ es : List Event, es.length ≤ Timeline.MAX_SIZE →
      (Timeline.new.pushAll es).seek .live = some es.reverse) ∧
    (∀ (t : Timeline) (i : Nat), t.removed ≤ i → i ≤ t.end_.val →
      ∃ l, t.seek (.paused ⟨i⟩) = some l ∧
        l.length = i - t.removed ∧
        ∀ k, k < i - t.removed →
          l.getD k default = t.events.getD (i - t.removed - 1 - k) default) := by
  constructor
  · intro es hes
    obtain ⟨he, hr⟩ := Timeline.pushAll_no_evict es Timeline.new
      (by simpa [Timeline.new] using hes)
    have he' : (Timeline.new.pushAll es).events = es := by
      simpa [Timeline.new] using he
    have hr' : (Timeline.new.pushAll es).removed = 0 := by
      simpa [Timeline.new] using hr
    rw [Timeline.seek_live, he', hr']
    simp [Timeline.end_, he', hr']
  · intro t i h1 h2
    have hm : i - t.removed ≤ t.events.length := by
      simp only [Timeline.end_] at h2; omega
    refine ⟨_, Timeline.seek_paused t i hm, ?_, ?_⟩
    · simp [Nat.min_eq_left hm]
    · intro k hk
      have hm1 : (t.events.take (i - t.removed)).length = i - t.removed := by
        simp [Nat.min_eq_left hm]
      have hk1 : k < ((t.events.take (i - t.removed)).reverse).length := by
        simp only [List.length_reverse, hm1]; exact hk
      have hb : i - t.removed - 1 - k < t.events.length := by omega
      rw [List.getD_eq_getElem _ _ hk1, List.getElem_reverse, List.getElem_take,
        List.getD_eq_getElem _ _ hb]
      simp [hm1]

/-! ### C3: panic behavior of queries at out-of-range playheads -/

/-- C3 counterexample: on a fresh `Timeline`, `end() == Index(0)`, yet
`seek(Paused(Index(1)))` panics (`VecDeque::range` out of bounds, modelled
as `none`) instead of behaving as if clamped to `end()` (which would yield
`some []`). -/
theorem c3_counterexample_seek_panics :
    Timeline.new.end_ = ⟨0⟩ ∧
      Timeline.new.seek (.paused ⟨1⟩) = none ∧
      Timeline.new.seek .live = some [] := by
  refine ⟨rfl, ?_, rfl⟩
  rfl

/-- C3 (amended): for every `Timeline` and playhead whose resolved index is
at most `end()` — in particular any `Paused(i)` with `i ≤ end()`, including
indices below the oldest retained one, which merely yield fewer (possibly
zero) results — `seek`, `seek_with_index`, `timeframes` and `time_at` do not
panic, and `seek` yields exactly `resolved - removed` (saturating) events;
`updates` and `update_rate` never panic for any playhead and never yield
more entries than are stored.  (A `Paused(i)` with `i > end()` makes the
seek-based queries panic, per the counterexample.) -/
theorem c3_amended_no_panic_within_range (t : Timeline) (p : Playhead)
    (h : (t.index p).val ≤ t.end_.val) :
    (∃ l, t.seek p = some l ∧ l.length = (t.index p).val - t.removed) ∧
      (t.seek_with_index p).isSome ∧
      (∀ s, (t.timeframes p s).isSome) ∧
      (t.time_at p).isSome ∧
      (∀ q : Playhead, (t.updatesQuery q).length ≤ t.updates.length ∧
        (t.updateRateQuery q).length ≤ t.update_rate.length) := by
  have hm : (t.index p).val - t.removed ≤ t.events.length := by
    simp only [Timeline.end_] at h; omega
  have hseek : t.seek p
      = some ((t.events.take ((t.index p).val - t.removed)).reverse) := by
    rw [Timeline.seek_def]
    exact if_pos hm
  refine ⟨⟨_, hseek, by simp [Nat.min_eq_left hm]⟩, ?_, ?_, ?_, ?_⟩
  · simp [Timeline.seek_with_index, hseek]
  · intro s
    simp [Timeline.timeframes, Timeline.seek_with_index, hseek]
  · simp [Timeline.time_at, hseek]
  · intro q
    constructor
    · simp only [Timeline.updatesQuery, List.length_reverse, List.length_take]
      exact Nat.min_le_right _ _
    · simp only [Timeline.updateRateQuery, List.length_reverse, List.length_take]
      exact Nat.min_le_right _ _

/-- C3 witness: the amended theorem applied to a concrete one-event timeline
and the in-range playhead `Paused(Index(0))` (below-range yields zero
results). -/
theorem c3_amended_witness :
    ∃ l, (Timeline.new.push (.connected "a" "b" 3)).seek (.paused ⟨0⟩)
        = some l ∧ l.length = 0 - (Timeline.new.push (.connected "a" "b" 3)).removed := by
  exact (c3_amended_no_panic_within_range
    (Timeline.new.push (.connected "a" "b" 3)) (.paused ⟨0⟩) (by decide)).1

/-! ### Correctness of the embedded binary search on sorted sequences -/

theorem takeWhile_length_le (p : α → Bool) (l : List α) :
    (l.takeWhile p).length ≤ l.length := by
  induction l with
  | nil => simp
  | cons a l ih =>
      rw [List.takeWhile_cons]
      split <;> simp <;> omega

theorem getD_takeWhile_pred (p : α → Bool) (d : α) :
    ∀ (l : List α) (j : Nat), j < (l.takeWhile p).length →
      p (l.getD j d) = true := by
  intro l
  induction l with
  | nil => simp
  | cons a l ih =>
      intro j hj
      rw [List.takeWhile_cons] at hj
      by_cases hpa : p a = true
      · rw [if_pos hpa] at hj
        cases j with
        | zero => simpa using hpa
        | succ j =>
            rw [List.getD_cons_succ]
            exact ih j (by simpa using hj)
      · rw [if_neg hpa] at hj
        simp at hj

theorem getD_at_takeWhile_length (p : α → Bool) (d : α) :
    ∀ l : List α, (l.takeWhile p).length < l.length →
      p (l.getD (l.takeWhile p).length d) = false := by
  intro l
  induction l with
  | nil => simp
  | cons a l ih =>
      intro hlt
      rw [List.takeWhile_cons]
      rw [List.takeWhile_cons] at hlt
      by_cases hpa : p a = true
      · rw [if_pos hpa] at hlt ⊢
        simpa using ih (by simpa using hlt)
      · rw [if_neg hpa] at hlt ⊢
        simpa using hpa

theorem bsLoop_correct (g : Nat → Ordering) (n c : Nat)
    (hlt : ∀ j, j < c → g j = .lt)
    (hgt : ∀ j, c < j → j < n → g j = .gt)
    (hc : c < n → g c ≠ .lt) :
    ∀ (fuel left right : Nat), right - left ≤ fuel → left ≤ c → c ≤ right →
      right ≤ n →
      bsLoop g fuel left right = .inl c ∨ bsLoop g fuel left right = .inr c := by
  intro fuel
  induction fuel with
  | zero =>
      intro left right h1 h2 h3 h4
      have hlc : left = c := by omega
      rw [hlc, bsLoop]
      exact Or.inr rfl
  | succ fuel ih =>
      intro left right h1 h2 h3 h4
      by_cases hlr : left < right
      · rw [bsLoop, if_pos hlr]
        have hmid2 : left + (right - left) / 2 < right := by omega
        cases hg : g (left + (right - left) / 2) with
        | lt =>
            simp only [hg]
            have hmc : left + (right - left) / 2 < c := by
              by_contra hcon
              push_neg at hcon
              rcases Nat.eq_or_lt_of_le hcon with he | hl
              · exact hc (by omega) (he ▸ hg)
              · have hh := hgt _ hl (by omega)
                rw [hh] at hg
                cases hg
            exact ih (left + (right - left) / 2 + 1) right (by omega) (by omega)
              h3 h4
        | gt =>
            simp only [hg]
            have hmc : c ≤ left + (right - left) / 2 := by
              by_contra hcon
              push_neg at hcon
              have hh := hlt _ hcon
              rw [hh] at hg
              cases hg
            exact ih left (left + (right - left) / 2) (by omega) h2 hmc
              (by omega)
        | eq =>
            simp only [hg]
            left
            congr 1
            by_contra hne
            rcases Nat.lt_or_ge (left + (right - left) / 2) c with hl | hge
            · have hh := hlt _ hl
              rw [hh] at hg
              cases hg
            · rcases Nat.eq_or_lt_of_le hge with he | hl
              · exact hne he.symm
              · have hh := hgt _ hl (by omega)
                rw [hh] at hg
                cases hg
      · rw [bsLoop, if_neg hlr]
        have : left = c := by omega
        rw [this]
        exact Or.inr rfl

theorem binarySearchBy_start (l : List α) (f : α → Ordering) (key : α → Nat)
    (target : Nat) (d : α)
    (hf : ∀ a, f a = compare (key a) target)
    (hs : ∀ i j : Nat, i < j → (hj : j < l.length) →
      key (l.getD i d) < key (l.getD j d)) :
    bsStart (binarySearchBy l f)
      = (l.takeWhile fun a => decide (key a < target)).length := by
  set p : α → Bool := fun a => decide (key a < target) with hp
  set c := (l.takeWhile p).length with hcdef
  have hcle : c ≤ l.length := takeWhile_length_le p l
  set g : Nat → Ordering := fun i =>
    match l[i]? with
    | some a => f a
    | none => Ordering.eq with hg
  have hglt : ∀ j, j < c → g j = .lt := by
    intro j hj
    have hjl : j < l.length := lt_of_lt_of_le hj hcle
    have hpj := getD_takeWhile_pred p d l j hj
    have hget : l[j]? = some (l.getD j d) := by
      rw [List.getD_eq_getElem l d hjl, List.getElem?_eq_getElem hjl]
    simp only [hg, hget, hf]
    rw [Nat.compare_eq_lt]
    simpa [hp] using hpj
  have hkeyc : c < l.length → target ≤ key (l.getD c d) := by
    intro hcl
    have := getD_at_takeWhile_length p d l hcl
    simp only [hp] at this
    simpa using this
  have hggt : ∀ j, c < j → j < l.length → g j = .gt := by
    intro j hcj hjl
    have hget : l[j]? = some (l.getD j d) := by
      rw [List.getD_eq_getElem l d hjl, List.getElem?_eq_getElem hjl]
    simp only [hg, hget, hf]
    rw [Nat.compare_eq_gt]
    have h1 : target ≤ key (l.getD c d) := hkeyc (lt_trans hcj hjl)
    have h2 : key (l.getD c d) < key (l.getD j d) := hs c j hcj hjl
    omega
  have hgc : c < l.length → g c ≠ .lt := by
    intro hcl hcon
    have hget : l[c]? = some (l.getD c d) := by
      rw [List.getD_eq_getElem l d hcl, List.getElem?_eq_getElem hcl]
    simp only [hg, hget, hf] at hcon
    rw [Nat.compare_eq_lt] at hcon
    have := hkeyc hcl
    omega
  have := bsLoop_correct g l.length c hglt hggt hgc l.length 0 l.length
    (by omega) (by omega) hcle (le_refl _)
  rcases this with h | h <;>
    · unfold binarySearchBy bsStart
      rw [h]

theorem takeWhile_eq_filter_of_sorted (key : α → Nat) (target : Nat) (d : α) :
    ∀ l : List α,
      (∀ i j : Nat, i < j → (hj : j < l.length) →
        key (l.getD i d) < key (l.getD j d)) →
      l.takeWhile (fun a => decide (key a < target))
        = l.filter (fun a => decide (key a < target)) := by
  intro l
  induction l with
  | nil => intro _; rfl
  | cons a l ih =>
      intro hs
      have hs' : ∀ i j : Nat, i < j → (hj : j < l.length) →
          key (l.getD i d) < key (l.getD j d) := by
        intro i j hij hj
        have := hs (i + 1) (j + 1) (by omega) (by simpa using Nat.succ_lt_succ hj)
        simpa using this
      by_cases hpa : key a < target
      · rw [List.takeWhile_cons, List.filter_cons]
        have hd : decide (key a < target) = true := by simpa using hpa
        rw [hd]
        simp [ih hs']
      · rw [List.takeWhile_cons, List.filter_cons]
        have hd : decide (key a < target) = false := by simpa using hpa
        rw [hd]
        simp only [Bool.false_eq_true, if_false]
        symm
        rw [List.filter_eq_nil_iff]
        intro b hb
        obtain ⟨j, hj, hbj⟩ := List.mem_iff_getElem.mp hb
        have hkb : key b = key (l.getD j d) := by
          rw [List.getD_eq_getElem l d hj, hbj]
        have h0 : key ((a :: l).getD 0 d) < key ((a :: l).getD (j + 1) d) :=
          hs 0 (j + 1) (by omega) (by simpa using Nat.succ_lt_succ hj)
        simp only [List.getD_cons_zero, List.getD_cons_succ] at h0
        simp only [decide_eq_true_eq]
        omega

/-! ### The derived-index invariant of `push` -/

theorem isUpdateEvent_iff (e : Event) :
    isUpdateEvent e = true ↔
      ∃ a d n ta su m, e = .spanFinished a d (.update n ta su m) := by
  cases e with
  | spanFinished a d s =>
      cases s <;> simp [isUpdateEvent]
  | _ => simp [isUpdateEvent]

theorem updIdxFrom_cons (base : Nat) (e : Event) (rest : List Event) :
    updIdxFrom base (e :: rest)
      = (if isUpdateEvent e then [base] else []) ++ updIdxFrom (base + 1) rest :=
  rfl

theorem updIdxFrom_append (l l' : List Event) :
    ∀ base, updIdxFrom base (l ++ l')
      = updIdxFrom base l ++ updIdxFrom (base + l.length) l' := by
  induction l with
  | nil => intro base; simp [updIdxFrom]
  | cons e rest ih =>
      intro base
      rw [List.cons_append, updIdxFrom_cons, ih (base + 1), updIdxFrom_cons,
        List.append_assoc, List.length_cons]
      have hb : base + 1 + rest.length = base + (rest.length + 1) := by omega
      rw [hb]

theorem updIdxFrom_singleton (base : Nat) (e : Event) :
    updIdxFrom base [e] = if isUpdateEvent e then [base] else [] := by
  simp [updIdxFrom]

theorem mem_updIdxFrom (x : Nat) :
    ∀ (l : List Event) (base : Nat),
      x ∈ updIdxFrom base l ↔
        ∃ j, j < l.length ∧ x = base + j ∧
          isUpdateEvent (l.getD j default) = true := by
  intro l
  induction l with
  | nil => intro base; simp [updIdxFrom]
  | cons e rest ih =>
      intro base
      simp only [updIdxFrom, List.mem_append]
      constructor
      · intro h
        rcases h with h | h
        · by_cases ht : isUpdateEvent e = true
          · rw [ht] at h
            simp at h
            exact ⟨0, by simp, by omega, by simpa using ht⟩
          · simp [ht] at h
        · obtain ⟨j, hj, hx, hu⟩ := (ih (base + 1)).mp h
          exact ⟨j + 1, by simpa using Nat.succ_lt_succ hj, by omega,
            by simpa using hu⟩
      · rintro ⟨j, hj, hx, hu⟩
        cases j with
        | zero =>
            left
            simp only [List.getD_cons_zero] at hu
            simp [hu]
            omega
        | succ j =>
            right
            refine (ih (base + 1)).mpr ⟨j, by simpa using hj, by omega, ?_⟩
            simpa using hu

theorem updIdxFrom_ge (l : List Event) (base x : Nat)
    (h : x ∈ updIdxFrom base l) : base ≤ x := by
  obtain ⟨j, _, hx, _⟩ := (mem_updIdxFrom x l base).mp h
  omega

theorem updIdxFrom_pairwise :
    ∀ (l : List Event) (base : Nat),
      List.Pairwise (· < ·) (updIdxFrom base l) := by
  intro l
  induction l with
  | nil => intro base; simp [updIdxFrom]
  | cons e rest ih =>
      intro base
      simp only [updIdxFrom]
      rw [List.pairwise_append]
      refine ⟨?_, ih (base + 1), ?_⟩
      · split <;> simp
      · intro a ha b hb
        have hb' := updIdxFrom_ge rest (base + 1) b hb
        have ha' : a = base := by
          by_cases ht : isUpdateEvent e = true
          · rw [ht] at ha; simpa using ha
          · simp [ht] at ha
        omega

namespace Timeline

theorem push_updates (t : Timeline) (e : Event) :
    (t.push e).updates =
      if t.events.length + 1 > MAX_SIZE ∧
          isUpdateEvent ((t.events ++ [e]).headD default) = true then
        (t.updates ++ t.newSummaries e).tail
      else
        t.updates ++ t.newSummaries e := by
  simp only [push, List.length_append, List.length_singleton]
  split
  · rename_i hov
    split
    · rename_i heq
      have hupd : isUpdateEvent ((t.events ++ [e]).headD default) = true := by
        rw [heq]
        simp [isUpdateEvent]
      rw [if_pos ⟨hov, hupd⟩]
    · rename_i hno heq
      have hc : ¬(t.events.length + 1 > MAX_SIZE ∧
          isUpdateEvent ((t.events ++ [e]).headD default) = true) := by
        rintro ⟨_, h2⟩
        rw [heq] at h2
        simp only [List.headD_cons] at h2
        obtain ⟨a, d, n, ta, su, m, hdec⟩ := (isUpdateEvent_iff _).mp h2
        exact hno a d n ta su m hdec
      rw [if_neg hc]
    · rename_i heq
      simp at heq
  · rename_i hov
    have hc : ¬(t.events.length + 1 > MAX_SIZE ∧
        isUpdateEvent ((t.events ++ [e]).headD default) = true) :=
      fun hc => hov hc.1
    rw [if_neg hc]

theorem push_update_rate (t : Timeline) (e : Event) :
    (t.push e).update_rate =
      if t.events.length + 1 > MAX_SIZE ∧
          isUpdateEvent ((t.events ++ [e]).headD default) = true then
        (match (t.foldRate e).head? with
         | some b =>
            if b.at_ < Event.at_ ((t.events ++ [e]).headD default) then
              (t.foldRate e).tail
            else t.foldRate e
         | none => t.foldRate e)
      else
        t.foldRate e := by
  simp only [push, List.length_append, List.length_singleton]
  split
  · rename_i hov
    split
    · rename_i heq
      have hupd : isUpdateEvent ((t.events ++ [e]).headD default) = true := by
        rw [heq]
        simp [isUpdateEvent]
      rw [if_pos ⟨hov, hupd⟩]
      rw [heq]
      simp only [List.headD_cons, Event.at_]
    · rename_i hno heq
      have hc : ¬(t.events.length + 1 > MAX_SIZE ∧
          isUpdateEvent ((t.events ++ [e]).headD default) = true) := by
        rintro ⟨_, h2⟩
        rw [heq] at h2
        simp only [List.headD_cons] at h2
        obtain ⟨a, d, n, ta, su, m, hdec⟩ := (isUpdateEvent_iff _).mp h2
        exact hno a d n ta su m hdec
      rw [if_neg hc]
    · rename_i heq
      simp at heq
  · rename_i hov
    have hc : ¬(t.events.length + 1 > MAX_SIZE ∧
        isUpdateEvent ((t.events ++ [e]).headD default) = true) :=
      fun hc => hov hc.1
    rw [if_neg hc]

theorem newSummaries_map (t : Timeline) (e : Event) :
    (t.newSummaries e).map (fun u => u.index.val)
      = if isUpdateEvent e then [t.events.length + t.removed] else [] := by
  cases e with
  | spanFinished a d s =>
      cases s <;> simp [newSummaries, isUpdateEvent, end_]
  | _ => simp [newSummaries, isUpdateEvent]

end Timeline

theorem updatesInv_new : UpdatesInv Timeline.new := rfl

theorem updatesInv_push (t : Timeline) (e : Event) (h : UpdatesInv t) :
    UpdatesInv (t.push e) := by
  unfold UpdatesInv at h ⊢
  rw [Timeline.push_updates, Timeline.push_events, Timeline.push_removed]
  by_cases hov : t.events.length + 1 > Timeline.MAX_SIZE
  · have hne : t.events ≠ [] := by
      intro hnil
      rw [hnil] at hov
      have := Timeline.MAX_SIZE_pos
      simp at hov
      omega
    obtain ⟨hd, tl, hevs⟩ := List.exists_cons_of_ne_nil hne
    by_cases hupd : isUpdateEvent ((t.events ++ [e]).headD default) = true
    · rw [if_pos ⟨hov, hupd⟩, if_pos hov, if_pos hov]
      rw [hevs] at hupd ⊢
      simp only [List.cons_append, List.headD_cons] at hupd
      rw [List.map_tail, List.map_append, h, Timeline.newSummaries_map]
      rw [hevs]
      simp only [updIdxFrom, hupd, if_pos, List.cons_append, List.tail_cons]
      rw [updIdxFrom_append]
      simp only [List.length_cons, updIdxFrom_singleton]
      simp only [List.nil_append]
      have harith : tl.length + 1 + t.removed = t.removed + 1 + tl.length := by
        omega
      rw [harith]
    · rw [if_neg (fun hc => hupd hc.2), if_pos hov, if_pos hov]
      rw [hevs] at hupd ⊢
      simp only [List.cons_append, List.headD_cons] at hupd
      rw [List.map_append, h, Timeline.newSummaries_map]
      rw [hevs]
      simp only [List.cons_append, List.tail_cons]
      simp only [updIdxFrom, hupd, Bool.false_eq_true, if_false,
        List.nil_append, List.length_cons]
      rw [updIdxFrom_append, updIdxFrom_singleton]
      have harith : tl.length + 1 + t.removed = t.removed + 1 + tl.length := by
        omega
      rw [harith]
  · rw [if_neg (fun hc => hov hc.1), if_neg hov, if_neg hov]
    rw [List.map_append, h, Timeline.newSummaries_map]
    rw [updIdxFrom_append, updIdxFrom_singleton]
    have harith : t.events.length + t.removed = t.removed + t.events.length := by
      omega
    rw [harith]

theorem updatesInv_pushAll (es : List Event) :
    ∀ t : Timeline, UpdatesInv t → UpdatesInv (t.pushAll es) := by
  induction es with
  | nil => intro t h; exact h
  | cons e es ih =>
      intro t h
      rw [Timeline.pushAll_cons]
      exact ih _ (updatesInv_push t e h)

theorem updatesInv_reachable (es : List Event) :
    UpdatesInv (Timeline.new.pushAll es) :=
  updatesInv_pushAll es Timeline.new updatesInv_new

theorem updates_pairwise_of_inv (t : Timeline) (h : UpdatesInv t) :
    List.Pairwise (fun a b : Update => a.index.val < b.index.val) t.updates := by
  have := updIdxFrom_pairwise t.events t.removed
  rw [← h] at this
  exact List.pairwise_map.mp this

theorem pairwise_getD_lt (key : α → Nat) (d : α) (l : List α)
    (h : List.Pairwise (fun a b => key a < key b) l) :
    ∀ i j : Nat, i < j → j < l.length → key (l.getD i d) < key (l.getD j d) := by
  intro i j hij hj
  have hi : i < l.length := lt_trans hij hj
  rw [List.getD_eq_getElem l d hi, List.getD_eq_getElem l d hj]
  have := List.pairwise_iff_get.mp h ⟨i, hi⟩ ⟨j, hj⟩ hij
  simpa [List.get_eq_getElem] using this

theorem take_takeWhile_length (p : α → Bool) :
    ∀ l : List α, l.take (l.takeWhile p).length = l.takeWhile p := by
  intro l
  induction l with
  | nil => rfl
  | cons a l ih =>
      rw [List.takeWhile_cons]
      by_cases hpa : p a = true
      · rw [if_pos hpa]
        simp only [List.length_cons, List.take_succ_cons]
        rw [ih]
      · rw [if_neg hpa]
        rfl

/-- Rust `Timeline::updates` on a timeline satisfying the derived-index invariant
returns exactly the stored summaries with index strictly below the resolved
playhead, newest first. -/
theorem updatesQuery_eq (t : Timeline) (p : Playhead) (hinv : UpdatesInv t) :
    t.updatesQuery p =
      (t.updates.filter fun u =>
        decide (u.index.val < (t.index p).val)).reverse := by
  have hpair := updates_pairwise_of_inv t hinv
  have hs := pairwise_getD_lt (fun u : Update => u.index.val) default t.updates
    hpair
  have hstart := binarySearchBy_start t.updates
    (fun u => u.index.cmp (t.index p)) (fun u : Update => u.index.val)
    (t.index p).val default (fun a => rfl) hs
  simp only [Timeline.updatesQuery]
  rw [hstart, take_takeWhile_length,
    takeWhile_eq_filter_of_sorted (fun u : Update => u.index.val)
      (t.index p).val default t.updates hs]

/-- C6: after any sequence of pushes on a fresh `Timeline`, every stored
update summary's `index` is the logical index of a retained update-span
event, the `updates` sequence is strictly index-ordered, and when a push
evicts an update-span event from the front of `events` it removes that
event's summary (which sits at the front of `updates`, carrying logical
index `removed`) from the front of `updates` in the same call. -/
theorem c6_derived_index_consistency (es : List Event) :
    let t := Timeline.new.pushAll es
    (∀ u ∈ t.updates, ∃ j, j < t.events.length ∧ u.index.val = t.removed + j ∧
        isUpdateEvent (t.events.getD j default) = true) ∧
    List.Chain' (fun a b : Update => a.index.val < b.index.val) t.updates ∧
    (∀ e : Event, Timeline.MAX_SIZE ≤ t.events.length →
      isUpdateEvent (t.events.headD default) = true →
      (t.push e).updates = (t.updates ++ t.newSummaries e).tail ∧
        ∃ u rest, t.updates ++ t.newSummaries e = u :: rest ∧
          u.index.val = t.removed) := by
  intro t
  have ht : t = Timeline.new.pushAll es := rfl
  have hinv : UpdatesInv t := by rw [ht]; exact updatesInv_reachable es
  unfold UpdatesInv at hinv
  refine ⟨?_, ?_, ?_⟩
  · intro u hu
    have hmem : u.index.val ∈ updIdxFrom t.removed t.events := by
      rw [← hinv]
      exact List.mem_map_of_mem _ hu
    obtain ⟨j, hj, hx, hupd⟩ := (mem_updIdxFrom _ _ _).mp hmem
    exact ⟨j, hj, hx, hupd⟩
  · exact (updates_pairwise_of_inv t (by exact hinv)).chain'
  · intro e hmax hhd
    have hne : t.events ≠ [] := by
      intro hnil
      rw [hnil] at hmax
      have := Timeline.MAX_SIZE_pos
      simp at hmax
      omega
    obtain ⟨hd, tl, hevs⟩ := List.exists_cons_of_ne_nil hne
    have hhd' : isUpdateEvent hd = true := by
      rw [hevs] at hhd
      simpa using hhd
    have hcond : t.events.length + 1 > Timeline.MAX_SIZE ∧
        isUpdateEvent ((t.events ++ [e]).headD default) = true := by
      constructor
      · omega
      · rw [hevs]
        simpa using hhd'
    constructor
    · rw [Timeline.push_updates, if_pos hcond]
    · have hmap : (t.updates ++ t.newSummaries e).map (fun u => u.index.val)
          = t.removed :: (updIdxFrom (t.removed + 1) tl
              ++ if isUpdateEvent e then [t.removed + 1 + tl.length] else []) := by
        rw [List.map_append, hinv, Timeline.newSummaries_map, hevs,
          updIdxFrom_cons, hhd']
        simp only [if_pos, List.singleton_append, List.cons_append,
          List.length_cons]
        have harith : tl.length + 1 + t.removed = t.removed + 1 + tl.length := by
          omega
        rw [harith]
        simp only [List.nil_append]
      cases hul : t.updates ++ t.newSummaries e with
      | nil => rw [hul] at hmap; simp at hmap
      | cons u rest =>
          refine ⟨u, rest, rfl, ?_⟩
          rw [hul] at hmap
          simp only [List.map_cons, List.cons.injEq] at hmap
          exact hmap.1

/-- C8: for every `Timeline` built by pushes and every playhead resolving to
index `p`, `updates(playhead)` yields exactly the stored update summaries
with index strictly below `p`, newest first (the binary search locates the
first entry with index `\u2265 p`); in the Connected/Update/Update/Subscriptions
scenario, `end() == Index(4)` and `updates(Live)` yields the summaries of
update #2 then update #1. -/
theorem c8_updates_query_binary_search (es : List Event) (p : Playhead) :
    ((Timeline.new.pushAll es).updatesQuery p =
      ((Timeline.new.pushAll es).updates.filter fun u =>
        decide (u.index.val
          < ((Timeline.new.pushAll es).index p).val)).reverse) ∧
    (Timeline.new.pushAll exScenario).end_ = ⟨4⟩ ∧
    (Timeline.new.pushAll exScenario).updatesQuery .live
      = [⟨⟨2⟩, 12000000, 2, 0, 0, "second"⟩,
         ⟨⟨1⟩, 10000000, 1, 0, 0, "first"⟩] := by
  refine ⟨updatesQuery_eq _ p (updatesInv_reachable es), rfl, rfl⟩

/-- C4 bug evidence: `clear()` resets only `events`.  After pushing one
update-span event and clearing, the stale summary and rate bucket are still
stored, and after one further push `updates(Live)` serves the stale summary
(on a fresh `Timeline` it would be empty), so the timeline does **not**
behave like a freshly created one after `clear()`. -/
theorem c4_clear_leaves_stale_derived_state :
    (Timeline.new.push exUpdate).clear.updates
        = [⟨⟨0⟩, 7, 1, 2, 3, "hello"⟩] ∧
    (Timeline.new.push exUpdate).clear.update_rate = [⟨⟨0⟩, 5, 0, 1⟩] ∧
    ((Timeline.new.push exUpdate).clear.push exConn).updatesQuery .live
        = [⟨⟨0⟩, 7, 1, 2, 3, "hello"⟩] ∧
    Timeline.new.updates = [] ∧
    (Timeline.new.push exConn).updatesQuery .live = [] := by
  exact ⟨rfl, rfl, rfl, rfl, rfl⟩

/-- C7: pushing three update-span events in UNIX second 0 and one in second
1 yields exactly two buckets with totals `[3, 1]`; in general (absent
eviction) an update-span event increments the last bucket in place when its
whole second matches (refreshing `at`) and otherwise appends a fresh bucket
with total 1, and non-update events leave `update_rate` unchanged — buckets
are never split or merged retroactively. -/
theorem c7_rate_bucket_folding :
    (Timeline.new.pushAll exRateEvents).update_rate.map (fun b => b.total)
        = [3, 1] ∧
    (Timeline.new.pushAll exRateEvents).update_rate.length = 2 ∧
    (∀ (t : Timeline) (a : SystemTime) (d : Duration) (n ta su : Nat)
        (m : String), t.events.length < Timeline.MAX_SIZE →
      (t.push (.spanFinished a d (.update n ta su m))).update_rate =
        match t.update_rate.getLast? with
        | some b =>
            if b.second = secsSinceEpoch a then
              t.update_rate.dropLast ++ [{ b with at_ := a, total := b.total + 1 }]
            else t.update_rate ++ [⟨t.end_, a, secsSinceEpoch a, 1⟩]
        | none => t.update_rate ++ [⟨t.end_, a, secsSinceEpoch a, 1⟩]) ∧
    (∀ (t : Timeline) (e : Event), t.events.length < Timeline.MAX_SIZE →
      isUpdateEvent e = false → (t.push e).update_rate = t.update_rate) := by
  refine ⟨rfl, rfl, ?_, ?_⟩
  · intro t a d n ta su m hlen
    rw [Timeline.push_no_evict _ _ hlen]
    rfl
  · intro t e hlen hupd
    rw [Timeline.push_no_evict _ _ hlen]
    show t.foldRate e = t.update_rate
    cases e with
    | spanFinished a d s =>
        cases s with
        | update n ta su m => simp [isUpdateEvent] at hupd
        | _ => rfl
    | _ => rfl

/-- C7 witness: the folding equations applied at concrete inputs — a first
update-span push on a fresh timeline opens a bucket with total 1, and a
`Connected` push leaves `update_rate` unchanged. -/
theorem c7_rate_bucket_folding_witness :
    (Timeline.new.push (.spanFinished 5 7 (.update 1 0 0 "x"))).update_rate
        = [⟨⟨0⟩, 5, 0, 1⟩] ∧
    (Timeline.new.push exConn).update_rate = [] := by
  constructor
  ·
    have h := c7_rate_bucket_folding.2.2.1 Timeline.new 5 7 1 0 0 "x"
      (by decide)
    simpa using h
  ·
    have h := c7_rate_bucket_folding.2.2.2 Timeline.new exConn (by decide) rfl
    simpa using h

namespace Timeline

/-- Rust `push` when the append overflows and the evicted front event is not an
update-span event. -/
theorem push_evict_non_update (t : Timeline) (e : Event)
    (hov : t.events.length + 1 > MAX_SIZE)
    (hhd : isUpdateEvent ((t.events ++ [e]).headD default) = false) :
    t.push e =
      { events := (t.events ++ [e]).tail
        updates := t.updates ++ t.newSummaries e
        update_rate := t.foldRate e
        removed := t.removed + 1 } := by
  have hcond : ¬(t.events.length + 1 > MAX_SIZE ∧
      isUpdateEvent ((t.events ++ [e]).headD default) = true) := by
    rintro ⟨_, h2⟩
    rw [hhd] at h2
    cases h2
  have he := push_events t e
  have hu := push_updates t e
  have hr := push_update_rate t e
  have hm := push_removed t e
  rw [if_pos hov] at he hm
  rw [if_neg hcond] at hu hr
  calc t.push e = ⟨(t.push e).events, (t.push e).updates,
      (t.push e).update_rate, (t.push e).removed⟩ := rfl
    _ = _ := by rw [he, hu, hr, hm]

end Timeline

/-- Pushing `n \u2264 MAX_SIZE` copies of the non-update event `exConn` onto a
fresh timeline just accumulates them. -/
theorem pushAll_replicate_conn (n : Nat) (hn : n ≤ Timeline.MAX_SIZE) :
    Timeline.new.pushAll (List.replicate n exConn)
      = ⟨List.replicate n exConn, [], [], 0⟩ := by
  induction n with
  | zero => rfl
  | succ n ih =>
      have hn' : n ≤ Timeline.MAX_SIZE := le_trans (Nat.le_succ n) hn
      rw [List.replicate_succ', Timeline.pushAll_snoc, ih hn']
      rw [Timeline.push_no_evict _ _ (by simpa using hn)]
      simp [Timeline.newSummaries, Timeline.foldRate, exConn,
        ← List.replicate_succ']

/-- C5 bug evidence: after `MAX_SIZE + 1` pushes of a non-update event,
`removed == 1` and `end() == MAX_SIZE + 1`; for the in-range playhead
`Paused(Index(2))` the first item of `seek_with_index` is paired with
`Index(1)` — the physical-offset value `p - removed - k` — whereas the
claimed logical pairing `p - k` would give `Index(2)`.  The paired index of
a retained event thus shifts as `removed` grows. -/
theorem tail_replicate_append_conn :
    ∀ n : Nat, (List.replicate n exConn ++ [exConn]).tail
      = List.replicate n exConn := by
  intro n
  cases n with
  | zero => rfl
  | succ k =>
      rw [List.replicate_succ, List.cons_append, List.tail_cons,
        ← List.replicate_succ', List.replicate_succ]

theorem push_evict_conn_state (n : Nat) (hn : Timeline.MAX_SIZE ≤ n) :
    (⟨List.replicate n exConn, [], [], 0⟩ : Timeline).push exConn
      = ⟨List.replicate n exConn, [], [], 1⟩ := by
  rw [Timeline.push_evict_non_update _ _ ?hov ?hhd]
  case hov =>
    simp only [List.length_replicate]
    omega
  case hhd =>
    cases n with
    | zero => rfl
    | succ k =>
        rw [List.replicate_succ]
        rfl
  rw [tail_replicate_append_conn n]
  rfl

theorem seek_replicate_conn (n : Nat) (hn : 1 ≤ n) :
    Timeline.seek ⟨List.replicate n exConn, [], [], 1⟩ (.paused ⟨2⟩)
      = some [exConn] := by
  rw [Timeline.seek_def]
  rw [if_pos ?hle]
  case hle =>
    simp only [Timeline.index, List.length_replicate]
    omega
  simp only [Timeline.index]
  norm_num
  rw [show (1 : Nat) ⊓ n = 1 by omega]
  rfl

theorem swi_replicate_conn (n : Nat) (hn : 1 ≤ n) :
    Timeline.seek_with_index ⟨List.replicate n exConn, [], [], 1⟩
      (.paused ⟨2⟩) = some [(⟨1⟩, exConn)] := by
  simp only [Timeline.seek_with_index]
  rw [seek_replicate_conn n hn]
  rfl

/-- C5 bug evidence: after `MAX_SIZE + 1` pushes of a non-update event,
`removed == 1` and `end() == MAX_SIZE + 1`; for the in-range playhead
`Paused(Index(2))` the first item of `seek_with_index` is paired with
`Index(1)` — the physical-offset value `p - removed - k` — whereas the
claimed logical pairing `p - k` would give `Index(2)`.  The paired index of
a retained event thus shifts as `removed` grows through eviction. -/
theorem c5_seek_with_index_pairs_physical_offset :
    (Timeline.new.pushAll
      (List.replicate (Timeline.MAX_SIZE + 1) exConn)).removed = 1 ∧
    (Timeline.new.pushAll
      (List.replicate (Timeline.MAX_SIZE + 1) exConn)).end_.val
        = Timeline.MAX_SIZE + 1 ∧
    (Timeline.new.pushAll
      (List.replicate (Timeline.MAX_SIZE + 1) exConn)).seek_with_index
        (.paused ⟨2⟩) = some [(⟨1⟩, exConn)] ∧
    (Timeline.new.pushAll
      (List.replicate (Timeline.MAX_SIZE + 1) exConn)).seek_with_index
        (.paused ⟨2⟩) ≠ some [(⟨2⟩, exConn)] := by
  have hstate : Timeline.new.pushAll
      (List.replicate (Timeline.MAX_SIZE + 1) exConn)
      = ⟨List.replicate Timeline.MAX_SIZE exConn, [], [], 1⟩ := by
    rw [List.replicate_succ', Timeline.pushAll_snoc,
      pushAll_replicate_conn Timeline.MAX_SIZE (le_refl _),
      push_evict_conn_state Timeline.MAX_SIZE (le_refl _)]
  have hrem : ∀ n : Nat,
      (⟨List.replicate n exConn, [], [], 1⟩ : Timeline).removed = 1 :=
    fun _ => rfl
  have hend : ∀ n : Nat,
      (⟨List.replicate n exConn, [], [], 1⟩ : Timeline).end_.val = n + 1 := by
    intro n
    simp [Timeline.end_]
  have hswi := swi_replicate_conn Timeline.MAX_SIZE Timeline.MAX_SIZE_pos
  rw [hstate]
  refine ⟨hrem _, hend _, hswi, ?_⟩
  rw [hswi]
  simp

/-- C9: a fresh `Timeline` has `range() == Index(0)..=Index(0)`, empty query
iterators (for `seek`-family queries at in-range playheads, and for
`updates`/`update_rate` at every playhead), and `time_at` none; in general
`time_at` yields the timestamp of the event immediately before the resolved
playhead and none whenever the playhead is at (or before) the start of
retained history. -/
theorem c9_fresh_timeline_empty_and_time_at :
    Timeline.new.range = (⟨0⟩, ⟨0⟩) ∧
    Timeline.new.seek .live = some [] ∧
    Timeline.new.seek (.paused ⟨0⟩) = some [] ∧
    Timeline.new.seek_with_index .live = some [] ∧
    (∀ s, Timeline.new.timeframes .live s = some []) ∧
    (∀ p, Timeline.new.updatesQuery p = []
      ∧ Timeline.new.updateRateQuery p = []) ∧
    Timeline.new.time_at .live = some none ∧
    (∀ (t : Timeline) (p : Playhead), (t.index p).val ≤ t.removed →
      t.time_at p = some none) ∧
    (∀ (t : Timeline) (p : Playhead), t.removed < (t.index p).val →
      (t.index p).val ≤ t.end_.val →
      t.time_at p = some (some (Event.at_ (t.events.getD
        ((t.index p).val - t.removed - 1) default)))) := by
  refine ⟨rfl, rfl, rfl, rfl, fun s => rfl, fun p => ⟨rfl, rfl⟩, rfl, ?_, ?_⟩
  · intro t p h
    have h0 : (t.index p).val - t.removed = 0 := by omega
    unfold Timeline.time_at
    rw [Timeline.seek_def, if_pos (by omega)]
    rw [h0]
    rfl
  · intro t p h1 h2
    have hm : (t.index p).val - t.removed ≤ t.events.length := by
      simp only [Timeline.end_] at h2
      omega
    unfold Timeline.time_at
    rw [Timeline.seek_def, if_pos hm]
    have hlen : (t.events.take ((t.index p).val - t.removed)).length
        = (t.index p).val - t.removed := by
      simp [Nat.min_eq_left hm]
    have hb : (t.index p).val - t.removed - 1
        < (t.events.take ((t.index p).val - t.removed)).length := by
      rw [hlen]
      omega
    have hb2 : (t.index p).val - t.removed - 1 < t.events.length := by omega
    rw [Option.map_some', List.head?_reverse, List.getLast?_eq_getElem?,
      hlen, List.getElem?_eq_getElem hb, List.getElem_take,
      List.getD_eq_getElem t.events default hb2]
    rfl

/-- C9 witness: the `time_at` clauses applied to a one-event timeline at the
very start of history (`Paused(0)`, yielding none) and just after the event
(`Paused(1)`, yielding the event's timestamp 9). -/
theorem c9_witness :
    Timeline.time_at ⟨[exConn], [], [], 0⟩ (.paused ⟨0⟩) = some none ∧
    Timeline.time_at ⟨[exConn], [], [], 0⟩ (.paused ⟨1⟩) = some (some 9) := by
  constructor
  · exact c9_fresh_timeline_empty_and_time_at.2.2.2.2.2.2.2.1
      ⟨[exConn], [], [], 0⟩ (.paused ⟨0⟩) (by decide)
  · have h := c9_fresh_timeline_empty_and_time_at.2.2.2.2.2.2.2.2
      ⟨[exConn], [], [], 0⟩ (.paused ⟨1⟩) (by decide) (by decide)
    simpa [exConn, Event.at_] using h

/-- C10: a push of a non-update event leaves `updates` and `update_rate`
unchanged provided the evicted event (if any) is also not an update-span
event, and `removed` grows by exactly 1 exactly when an eviction occurs. -/
theorem c10_non_update_push_frame (t : Timeline) (e : Event)
    (he : isUpdateEvent e = false)
    (hev : t.events.length + 1 > Timeline.MAX_SIZE →
      isUpdateEvent (t.events.headD default) = false) :
    (t.push e).updates = t.updates ∧
    (t.push e).update_rate = t.update_rate ∧
    (t.push e).removed =
      (if t.events.length + 1 > Timeline.MAX_SIZE then t.removed + 1
       else t.removed) := by
  have hns : t.newSummaries e = [] := by
    cases e with
    | spanFinished a d sp =>
        cases sp with
        | update n ta su m => simp [isUpdateEvent] at he
        | _ => rfl
    | _ => rfl
  have hfr : t.foldRate e = t.update_rate := by
    cases e with
    | spanFinished a d sp =>
        cases sp with
        | update n ta su m => simp [isUpdateEvent] at he
        | _ => rfl
    | _ => rfl
  have hcond : ¬(t.events.length + 1 > Timeline.MAX_SIZE ∧
      isUpdateEvent ((t.events ++ [e]).headD default) = true) := by
    rintro ⟨hov, h2⟩
    have hne : t.events ≠ [] := by
      intro hnil
      rw [hnil] at hov
      have := Timeline.MAX_SIZE_pos
      simp at hov
      omega
    obtain ⟨hd, tl, hevs⟩ := List.exists_cons_of_ne_nil hne
    have := hev hov
    rw [hevs] at this h2
    simp only [List.cons_append, List.headD_cons] at h2
    simp only [List.headD_cons] at this
    rw [this] at h2
    cases h2
  refine ⟨?_, ?_, Timeline.push_removed t e⟩
  · rw [Timeline.push_updates, if_neg hcond, hns, List.append_nil]
  · rw [Timeline.push_update_rate, if_neg hcond, hfr]

/-- C10 witness: pushing `Connected` onto a fresh timeline changes nothing
but `events`. -/
theorem c10_non_update_push_frame_witness :
    (Timeline.new.push exConn).updates = Timeline.new.updates ∧
    (Timeline.new.push exConn).update_rate = Timeline.new.update_rate ∧
    (Timeline.new.push exConn).removed =
      (if Timeline.new.events.length + 1 > Timeline.MAX_SIZE then
        Timeline.new.removed + 1
       else Timeline.new.removed) :=
  c10_non_update_push_frame Timeline.new exConn rfl (by decide)

/-- C2 witness: `seek(Live)` after two pushes returns both events newest
first, and `seek(Paused(1))` on a one-event timeline returns that event. -/
theorem c2_seek_determinism_witness :
    (Timeline.new.pushAll [exConn, exUpdate]).seek .live
        = some [exUpdate, exConn] ∧
    (∃ l, Timeline.seek ⟨[exConn], [], [], 0⟩ (.paused ⟨1⟩) = some l ∧
      l.length = 1 - (⟨[exConn], [], [], 0⟩ : Timeline).removed ∧
      ∀ k, k < 1 - (⟨[exConn], [], [], 0⟩ : Timeline).removed →
        l.getD k default = (⟨[exConn], [], [], 0⟩ : Timeline).events.getD
          (1 - (⟨[exConn], [], [], 0⟩ : Timeline).removed - 1 - k) default) := by
  constructor
  · exact c2_seek_determinism.1 [exConn, exUpdate] (by decide)
  · exact c2_seek_determinism.2 ⟨[exConn], [], [], 0⟩ 1 (by decide) (by decide)

/-- C6 witness: on a timeline filled to capacity with update-span events,
pushing one more event evicts the front update-span event and drops its
summary — which carries logical index `removed` — from the front of
`updates` in the same call. -/
theorem c6_derived_index_consistency_witness :
    ((Timeline.new.pushAll
        (List.replicate Timeline.MAX_SIZE exUpdate)).push exConn).updates
      = ((Timeline.new.pushAll (List.replicate Timeline.MAX_SIZE exUpdate)).updates
          ++ (Timeline.new.pushAll
              (List.replicate Timeline.MAX_SIZE exUpdate)).newSummaries exConn).tail
    ∧ ∃ u rest,
        (Timeline.new.pushAll (List.replicate Timeline.MAX_SIZE exUpdate)).updates
            ++ (Timeline.new.pushAll
                (List.replicate Timeline.MAX_SIZE exUpdate)).newSummaries exConn
          = u :: rest ∧
        u.index.val
          = (Timeline.new.pushAll
              (List.replicate Timeline.MAX_SIZE exUpdate)).removed := by
  have hmax : Timeline.MAX_SIZE ≤ (Timeline.new.pushAll
      (List.replicate Timeline.MAX_SIZE exUpdate)).events.length := by
    have hl := Timeline.pushAll_new_len
      (List.replicate Timeline.MAX_SIZE exUpdate)
    rw [hl.1, List.length_replicate, Nat.min_self]
  have he' : (Timeline.new.pushAll
      (List.replicate Timeline.MAX_SIZE exUpdate)).events
      = List.replicate Timeline.MAX_SIZE exUpdate := by
    obtain ⟨he, -⟩ := Timeline.pushAll_no_evict
      (List.replicate Timeline.MAX_SIZE exUpdate) Timeline.new
      (by
        rw [List.length_replicate]
        show 0 + Timeline.MAX_SIZE ≤ Timeline.MAX_SIZE
        omega)
    rw [he, show Timeline.new.events = ([] : List Event) from rfl,
      List.nil_append]
  have hheadD : ∀ n : Nat, 1 ≤ n →
      (List.replicate n exUpdate).headD default = exUpdate := by
    intro n hn
    cases n with
    | zero => omega
    | succ k => rw [List.replicate_succ, List.headD_cons]
  have hhd : isUpdateEvent ((Timeline.new.pushAll
      (List.replicate Timeline.MAX_SIZE exUpdate)).events.headD default)
      = true := by
    rw [he', hheadD Timeline.MAX_SIZE Timeline.MAX_SIZE_pos]
    rfl
  exact (c6_derived_index_consistency
    (List.replicate Timeline.MAX_SIZE exUpdate)).2.2 exConn hmax hhd

end Comet
